import Mathlib

/-!
# Verification of the Anthropic streaming decoder (`rig-core`)

Shallow embedding of `src/rig-core/src/providers/anthropic/streaming.rs`:
the streaming event types, the per-event tool-call accumulator
`handle_event`, and the chunk/line processing loop of `stream`.

The JSON value parser (`serde_json::from_str` for `serde_json::Value`) and
the per-payload event parser (`serde_json::from_str::<StreamingEvent>`) are
external crate code; the embedding takes them as explicit function
parameters (`parseJson`, `parseEvent`) so every theorem quantifies over
the parser's behaviour, adding only the hypotheses a claim needs.
-/

namespace Rig

/-- Model of `serde_json::Value` (the argument value of a finished tool
call). The claims only ever inspect the empty object `Json.obj []`. -/
inductive Json where
  | null : Json
  | bool (b : Bool) : Json
  | num (n : Int) : Json
  | str (s : String) : Json
  | arr (elems : List Json) : Json
  | obj (fields : List (String × Json)) : Json

/-- Modelled from the spec: `Content` lives in the (absent)
`providers/anthropic/completion.rs`; §3 describes a block's content kind as
either plain text or a tool invocation (`tool_use` carrying `id` and
`name`), with other kinds possible. `handle_event` only distinguishes
`ToolUse {id, name, ..}` from everything else. -/
inductive Content where
  | text (text : String) : Content
  | toolUse (id : String) (name : String) : Content
  | other : Content
deriving DecidableEq, Repr

/-- Modelled from the spec: `Usage` lives in the absent `completion.rs`;
the spec mentions only pass-through of reported token counts. -/
structure Usage where
  input_tokens : Nat
  output_tokens : Nat
deriving DecidableEq, Repr

/-- Payload of a `message_start` event (streaming.rs lines 40-49). -/
structure MessageStart where
  id : String
  role : String
  content : List Content
  model : String
  stop_reason : Option String
  stop_sequence : Option String
  usage : Usage
deriving DecidableEq, Repr

/-- The two delta kinds of a `content_block_delta` event
(streaming.rs lines 51-56). -/
inductive ContentDelta where
  | textDelta (text : String) : ContentDelta
  | inputJsonDelta (partial_json : String) : ContentDelta
deriving DecidableEq, Repr

/-- Payload of a `message_delta` event (streaming.rs lines 58-62). -/
structure MessageDelta where
  stop_reason : Option String
  stop_sequence : Option String
deriving DecidableEq, Repr

/-- Partial usage on a `message_delta` event (streaming.rs lines 64-69). -/
structure PartialUsage where
  output_tokens : Nat
  input_tokens : Option Nat
deriving DecidableEq, Repr

/-- The decoded streaming events (streaming.rs lines 13-38). -/
inductive StreamingEvent where
  | messageStart (message : MessageStart) : StreamingEvent
  | contentBlockStart (index : Nat) (content_block : Content) : StreamingEvent
  | contentBlockDelta (index : Nat) (delta : ContentDelta) : StreamingEvent
  | contentBlockStop (index : Nat) : StreamingEvent
  | messageDelta (delta : MessageDelta) (usage : PartialUsage) : StreamingEvent
  | messageStop : StreamingEvent
  | ping : StreamingEvent
  | unknown : StreamingEvent
deriving DecidableEq, Repr

/-- The single-slot tool-call accumulator state
(streaming.rs lines 71-76). -/
structure ToolCallState where
  name : String
  id : String
  input_json : String
deriving DecidableEq, Repr

/-- The public output variants (`src/rig-core/src/streaming.rs`
lines 20-27). -/
inductive StreamingChoice where
  | message (text : String) : StreamingChoice
  | toolCall (name : String) (id : String) (args : Json) : StreamingChoice

/-- Modelled from the spec: `CompletionError` lives in the absent
`completion.rs`; §7 gives the error taxonomy used at the streaming loop's
yield sites: (a) transport read failure, (b) invalid UTF-8 chunk,
(c) malformed SSE JSON payload, (d) malformed accumulated tool arguments,
(e) invalid request. -/
inductive CompletionError where
  | transportError (msg : String) : CompletionError
  | encodingInvalid (msg : String) : CompletionError
  | jsonMalformed (msg : String) : CompletionError
  | toolArgumentsMalformed (msg : String) : CompletionError
  | requestError (msg : String) : CompletionError
deriving DecidableEq, Repr

/-- One item of the output sequence:
`Result<StreamingChoice, CompletionError>`. -/
abbrev StreamItem := Except CompletionError StreamingChoice

/-- Embedding of `handle_event` (streaming.rs lines 206-263), with the
mutable `current_tool_call: &mut Option<ToolCallState>` made explicit:
returns the optional yielded item together with the state after the call.
`parseJson` stands for `serde_json::from_str` on the accumulated buffer. -/
def handle_event (parseJson : String → Except String Json)
    (event : StreamingEvent) (current_tool_call : Option ToolCallState) :
    Option StreamItem × Option ToolCallState :=
  match event with
  | .contentBlockDelta _ (.textDelta text) =>
      -- `if current_tool_call.is_none()` (line 213)
      match current_tool_call with
      | none => (some (.ok (.message text)), none)
      | some tc => (none, some tc)
  | .contentBlockDelta _ (.inputJsonDelta partial_json) =>
      -- `if let Some(ref mut tool_call)` (line 219): append the fragment
      match current_tool_call with
      | some tc => (none, some { tc with input_json := tc.input_json ++ partial_json })
      | none => (none, none)
  | .contentBlockStart _ content_block =>
      match content_block with
      | .toolUse id name =>
          -- lines 226-232: open a fresh accumulation, discarding any old one
          (none, some { name := name, id := id, input_json := "" })
      | _ => (none, current_tool_call)
  | .contentBlockStop _ =>
      -- lines 237-255: `current_tool_call.take()`
      match current_tool_call with
      | some tool_call =>
          let json_str := if tool_call.input_json = "" then "\x7b\x7d" else tool_call.input_json
          match parseJson json_str with
          | .ok json_value => (some (.ok (.toolCall tool_call.name tool_call.id json_value)), none)
          | .error e => (some (.error (.toolArgumentsMalformed e)), none)
      | none => (none, none)
  | .messageStart _ => (none, current_tool_call)
  | .messageDelta _ _ => (none, current_tool_call)
  | .messageStop => (none, current_tool_call)
  | .ping => (none, current_tool_call)
  | .unknown => (none, current_tool_call)

/-- The items yielded by running `handle_event` over a list of decoded
events, threading the accumulator state (the `yield` sites of the
`stream!` loop, lines 186-188). -/
def processEvents (parseJson : String → Except String Json) :
    List StreamingEvent → Option ToolCallState → List StreamItem
  | [], _ => []
  | e :: rest, st =>
      match handle_event parseJson e st with
      | (some item, st') => item :: processEvents parseJson rest st'
      | (none, st') => processEvents parseJson rest st'

/-- Per-event outputs: one `Option StreamItem` per input event, in order. -/
def eventOutputs (parseJson : String → Except String Json) :
    List StreamingEvent → Option ToolCallState → List (Option StreamItem)
  | [], _ => []
  | e :: rest, st =>
      match handle_event parseJson e st with
      | (o, st') => o :: eventOutputs parseJson rest st'

/-- The accumulator state after running `handle_event` over a list of
events. -/
def finalState (parseJson : String → Except String Json)
    (events : List StreamingEvent) (st : Option ToolCallState) :
    Option ToolCallState :=
  events.foldl (fun s e => (handle_event parseJson e s).2) st

/-! ## The SSE frame splitter and the chunk loop (streaming.rs 155-202) -/

/-- Split a character list at every `'\n'`, keeping all (possibly empty)
segments; the total function underlying the line splitter. -/
def splitNl : List Char → List (List Char)
  | [] => [[]]
  | c :: rest =>
      if c = '\n' then [] :: splitNl rest
      else
        match splitNl rest with
        | s :: ss => (c :: s) :: ss
        | [] => [[c]]

/-- Drop one trailing `'\r'`, as Rust `str::lines` does per line. -/
def stripCr (l : List Char) : List Char :=
  if l.getLast? = some '\r' then l.dropLast else l

/-- Rust `str::lines` (used at streaming.rs line 176): split at `'\n'`
with the final line ending optional (a trailing empty segment is not a
line), stripping one trailing `'\r'` from each line. -/
def rustLines (l : List Char) : List (List Char) :=
  (if (splitNl l).getLast? = some [] then (splitNl l).dropLast else splitNl l).map stripCr

/-- The lines the loop actually iterates over: each chunk's text is split
into lines independently (`text.lines()` is called per chunk; nothing is
carried across chunk boundaries). -/
def chunkLines (chunks : List (List Char)) : List (List Char) :=
  (chunks.map rustLines).flatten

/-- ASCII whitespace; stands for the characters `str::trim` removes (the
full Unicode White_Space set is not modelled; no claim exercises it). -/
def isWsChar (c : Char) : Bool :=
  c = ' ' || c = '\t' || c = '\n' || c = '\r'

/-- `data.trim().is_empty()` (lines 180, 192). -/
def trimEmpty (l : List Char) : Bool := l.all isWsChar

/-- `line.strip_prefix("data: ")` (line 178): the payload after the SSE
marker, when the marker is present. -/
def dataPayload? (line : List Char) : Option (List Char) :=
  if line.take 6 = "data: ".data then some (line.drop 6) else none

/-- An SSE line carrying the given payload. -/
def mkDataLine (payload : List Char) : List Char := "data: ".data ++ payload

/-- The error text built at line 194:
`format!("Failed to parse JSON: {} (Data: {})", e, data)`. -/
def parseFailMsg (e : String) (data : List Char) : String :=
  "Failed to parse JSON: " ++ e ++ " (Data: " ++ String.mk data ++ ")"

/-- Processing of one line of a chunk (lines 176-199): recognize the
`data: ` marker, drop whitespace-only payloads, decode the event
(`parseEvent` stands for `serde_json::from_str::<StreamingEvent>`), run
`handle_event`, and surface a decode failure as one failed item. -/
def processLine (parseEvent : List Char → Except String StreamingEvent)
    (parseJson : String → Except String Json)
    (line : List Char) (st : Option ToolCallState) :
    List StreamItem × Option ToolCallState :=
  match dataPayload? line with
  | none => ([], st)
  | some data =>
      if trimEmpty data then ([], st)
      else
        match parseEvent data with
        | .ok event =>
            match handle_event parseJson event st with
            | (some item, st') => ([item], st')
            | (none, st') => ([], st')
        | .error e =>
            -- `if !data.trim().is_empty()` (line 192); always true here
            if trimEmpty data then ([], st)
            else ([.error (.jsonMalformed (parseFailMsg e data))], st)

/-- `for line in text.lines()`: fold `processLine` over the lines,
threading the accumulator state and concatenating yielded items. -/
def processLines (parseEvent : List Char → Except String StreamingEvent)
    (parseJson : String → Except String Json) :
    List (List Char) → Option ToolCallState → List StreamItem × Option ToolCallState
  | [], st => ([], st)
  | line :: rest, st =>
      let r := processLine parseEvent parseJson line st
      let r2 := processLines parseEvent parseJson rest r.2
      (r.1 ++ r2.1, r2.2)

/-- One result of `stream.next()`: a transport read failure (line 162), a
chunk whose bytes are not valid UTF-8 (line 170), or the decoded text of
a chunk. The byte-level UTF-8 decode itself is external (`String::from_utf8`);
its outcome is part of the input here. -/
inductive ChunkResult where
  | fail (msg : String) : ChunkResult
  | badUtf8 (msg : String) : ChunkResult
  | text (chars : List Char) : ChunkResult

/-- The `while let` chunk loop (lines 159-201): a transport or UTF-8
failure yields one error item and breaks; a text chunk is split into
lines and processed, and the loop continues with the threaded state.
Termination happens exactly when the chunk list is exhausted or one of
the two failure kinds occurs. -/
def processChunks (parseEvent : List Char → Except String StreamingEvent)
    (parseJson : String → Except String Json) :
    List ChunkResult → Option ToolCallState → List StreamItem
  | [], _ => []
  | .fail e :: _, _ => [.error (.transportError e)]
  | .badUtf8 e :: _, _ => [.error (.encodingInvalid e)]
  | .text t :: rest, st =>
      let r := processLines parseEvent parseJson (rustLines t) st
      r.1 ++ processChunks parseEvent parseJson rest r.2

/-! ## Event-sequence patterns used by the claims -/

/-- Does the event close a content block? -/
def isBlockStop : StreamingEvent → Bool
  | .contentBlockStop _ => true
  | _ => false

/-- Does the event open a tool-use block? -/
def isToolUseStart : StreamingEvent → Bool
  | .contentBlockStart _ (.toolUse _ _) => true
  | _ => false

/-- Is the event an input_json_delta? -/
def isInputJsonDelta : StreamingEvent → Bool
  | .contentBlockDelta _ (.inputJsonDelta _) => true
  | _ => false

/-- The in-between events of an accumulation window: none of them closes
a block or opens a tool-use block. -/
def midOk (evs : List StreamingEvent) : Bool :=
  evs.all fun e => !isBlockStop e && !isToolUseStart e

/-- Arrival-order concatenation of the partial_json texts of the
input_json_delta events. -/
def deltasConcat : List StreamingEvent → String
  | [] => ""
  | .contentBlockDelta _ (.inputJsonDelta pj) :: rest => pj ++ deltasConcat rest
  | _ :: rest => deltasConcat rest

/-- The string actually parsed at block stop: the accumulated buffer, or
the empty-object literal when the buffer is empty (lines 239-243). -/
def effJson (s : String) : String := if s = "" then "\x7b\x7d" else s

/-- The accumulation window the code completes: a tool-use block start,
then events that neither close a block nor open another tool-use block,
then a block stop (indices unconstrained), with the effective accumulated
buffer parsing to `v`. -/
def ToolCallWindow (parseJson : String → Except String Json)
    (evs : List StreamingEvent) (name id : String) (v : Json) : Prop :=
  ∃ idx jdx pre mid post,
    evs = pre ++ StreamingEvent.contentBlockStart idx (.toolUse id name)
            :: (mid ++ StreamingEvent.contentBlockStop jdx :: post)
    ∧ midOk mid = true
    ∧ parseJson (effJson (deltasConcat mid)) = .ok v

/-- The window exactly as the claim words it: block start and block stop
carry the same index and the in-between events are input_json_delta
events. -/
def SameIndexWindow (evs : List StreamingEvent) : Prop :=
  ∃ idx id name pre mid post,
    evs = pre ++ StreamingEvent.contentBlockStart idx (.toolUse id name)
            :: (mid ++ StreamingEvent.contentBlockStop idx :: post)
    ∧ mid.all isInputJsonDelta = true

/-- The event list closes an accumulation already open in the initial
state `st`: a block stop occurs before any other block stop or tool-use
block start, and the buffer as grown by the in-between deltas parses to
`v`. Auxiliary arm of the induction behind the tool-call
characterization. -/
def ClosesOpenState (J : String → Except String Json)
    (evs : List StreamingEvent) (st : Option ToolCallState)
    (name id : String) (v : Json) : Prop :=
  ∃ buf jdx mid post,
    st = some ⟨name, id, buf⟩ ∧
    evs = mid ++ StreamingEvent.contentBlockStop jdx :: post ∧
    midOk mid = true ∧
    J (effJson (buf ++ deltasConcat mid)) = .ok v

/-- The text contents of the text_delta events, in order. -/
def textDeltaTexts (evs : List StreamingEvent) : List String :=
  evs.filterMap fun e =>
    match e with
    | .contentBlockDelta _ (.textDelta t) => some t
    | _ => none

/-! ## The derived event deserializer's variant selection -/

/-- The variants of `StreamingEvent`, as selection targets. -/
inductive VariantName where
  | messageStart | contentBlockStart | contentBlockDelta | contentBlockStop
  | messageDelta | messageStop | ping | unknown
deriving DecidableEq, Repr

/-- The tag values the derived deserializer recognizes: the snake_case
renames of the variant names (attributes at streaming.rs lines 13-14:
`tag = "type"`, `rename_all = "snake_case"`). -/
def variantTags : List String :=
  ["message_start", "content_block_start", "content_block_delta",
   "content_block_stop", "message_delta", "message_stop", "ping"]

/-- Variant selection of the serde-derived deserializer: exact match of
the discriminator value against the snake_case variant names; anything
else selects `Unknown` via `#[serde(other)]` (line 36). -/
def selectVariant (tag : String) : VariantName :=
  if tag = "message_start" then .messageStart
  else if tag = "content_block_start" then .contentBlockStart
  else if tag = "content_block_delta" then .contentBlockDelta
  else if tag = "content_block_stop" then .contentBlockStop
  else if tag = "message_delta" then .messageDelta
  else if tag = "message_stop" then .messageStop
  else if tag = "ping" then .ping
  else .unknown

/-- ASCII lowercasing of a string. -/
def lowerAscii (s : String) : String := String.mk (s.data.map Char.toLower)

/-- Modelled from the spec: variant selection by "case-insensitive-snake-case
tag matching" (§4.3) — match the lowercased discriminator against the
snake_case variant names. -/
def selectVariantCI (tag : String) : VariantName := selectVariant (lowerAscii tag)

/-! ## Concrete parser instances used by witnesses and counterexamples -/

/-- A concrete `parseJson` instance: parses only the empty-object
literal, fails on everything else. -/
def parseOnlyEmptyObj : String → Except String Json :=
  fun s => if s = "\x7b\x7d" then .ok (.obj []) else .error s

/-- A concrete always-failing `parseJson` instance. -/
def parseNothing : String → Except String Json := fun s => .error s

/-- A concrete always-failing `parseEvent` instance. -/
def eventParseNothing : List Char → Except String StreamingEvent :=
  fun _ => .error "boom"

/-! ## Basic lemmas about the event loop -/

theorem processEvents_cons (J : String → Except String Json) (e : StreamingEvent)
    (rest : List StreamingEvent) (st : Option ToolCallState) :
    processEvents J (e :: rest) st =
      (handle_event J e st).1.toList ++ processEvents J rest (handle_event J e st).2 := by
  rcases h : handle_event J e st with ⟨o, st'⟩
  cases o <;> simp [processEvents, h]

theorem finalState_cons (J : String → Except String Json) (e : StreamingEvent)
    (rest : List StreamingEvent) (st : Option ToolCallState) :
    finalState J (e :: rest) st = finalState J rest (handle_event J e st).2 := rfl

theorem processEvents_append (J : String → Except String Json)
    (xs ys : List StreamingEvent) (st : Option ToolCallState) :
    processEvents J (xs ++ ys) st =
      processEvents J xs st ++ processEvents J ys (finalState J xs st) := by
  induction xs generalizing st with
  | nil => simp [processEvents, finalState]
  | cons e xs ih =>
      simp only [List.cons_append, processEvents_cons, finalState_cons, ih,
        List.append_assoc]

/-- Running the loop over a window of events that neither close a block
nor open a tool-use block, starting from an open accumulation: nothing is
yielded and the buffer grows by exactly the concatenated
partial_json texts. -/
theorem midOk_run (J : String → Except String Json) (mid : List StreamingEvent)
    (h : midOk mid = true) :
    ∀ tc : ToolCallState,
      processEvents J mid (some tc) = [] ∧
      finalState J mid (some tc) =
        some ⟨tc.name, tc.id, tc.input_json ++ deltasConcat mid⟩ := by
  induction mid with
  | nil =>
      intro tc
      simp [processEvents, finalState, deltasConcat]
  | cons e mid ih =>
      intro tc
      have he : (!isBlockStop e && !isToolUseStart e) = true ∧ midOk mid = true := by
        simpa [midOk, List.all_cons] using h
      have hm := he.2
      have hstop : isBlockStop e = false := by
        rcases Bool.and_eq_true_iff.mp he.1 with ⟨h1, _⟩
        simpa using h1
      have hstart : isToolUseStart e = false := by
        rcases Bool.and_eq_true_iff.mp he.1 with ⟨_, h2⟩
        simpa using h2
      cases e with
      | messageStart m =>
          simpa [processEvents_cons, finalState_cons, handle_event, deltasConcat]
            using ih hm tc
      | contentBlockStart idx cb =>
          cases cb with
          | toolUse cid cname => simp [isToolUseStart] at hstart
          | text t =>
              simpa [processEvents_cons, finalState_cons, handle_event, deltasConcat]
                using ih hm tc
          | other =>
              simpa [processEvents_cons, finalState_cons, handle_event, deltasConcat]
                using ih hm tc
      | contentBlockDelta idx d =>
          cases d with
          | textDelta t =>
              simpa [processEvents_cons, finalState_cons, handle_event, deltasConcat]
                using ih hm tc
          | inputJsonDelta pj =>
              have := ih hm ⟨tc.name, tc.id, tc.input_json ++ pj⟩
              simpa [processEvents_cons, finalState_cons, handle_event, deltasConcat,
                String.append_assoc] using this
      | contentBlockStop idx => simp [isBlockStop] at hstop
      | messageDelta d u =>
          simpa [processEvents_cons, finalState_cons, handle_event, deltasConcat]
            using ih hm tc
      | messageStop =>
          simpa [processEvents_cons, finalState_cons, handle_event, deltasConcat]
            using ih hm tc
      | ping =>
          simpa [processEvents_cons, finalState_cons, handle_event, deltasConcat]
            using ih hm tc
      | unknown =>
          simpa [processEvents_cons, finalState_cons, handle_event, deltasConcat]
            using ih hm tc

theorem ToolCallWindow_cons (J : String → Except String Json) (e : StreamingEvent)
    (rest : List StreamingEvent) (n id : String) (v : Json)
    (h : ToolCallWindow J rest n id v) : ToolCallWindow J (e :: rest) n id v := by
  obtain ⟨idx, jdx, pre, mid, post, heq, hmid, hJ⟩ := h
  exact ⟨idx, jdx, e :: pre, mid, post, by rw [heq, List.cons_append], hmid, hJ⟩

theorem ClosesOpenState_cons (J : String → Except String Json) (e : StreamingEvent)
    (rest : List StreamingEvent) (st : Option ToolCallState) (n id : String) (v : Json)
    (hstop : isBlockStop e = false) (hstart : isToolUseStart e = false)
    (hnd : ∀ l, deltasConcat (e :: l) = deltasConcat l)
    (h : ClosesOpenState J rest st n id v) : ClosesOpenState J (e :: rest) st n id v := by
  obtain ⟨buf, jdx, mid, post, hst, hrest, hmid, hJ⟩ := h
  refine ⟨buf, jdx, e :: mid, post, hst, by rw [hrest, List.cons_append], ?_, ?_⟩
  · simpa [midOk, List.all_cons, hstop, hstart] using hmid
  · simpa [hnd] using hJ

/-- Every emitted ToolCall item has an origin: either the event list
contains a complete accumulation window, or the initial state was an open
accumulation which the event list closes. -/
theorem toolCall_origin (J : String → Except String Json) (evs : List StreamingEvent) :
    ∀ (st : Option ToolCallState) (n id : String) (v : Json),
      Except.ok (StreamingChoice.toolCall n id v) ∈ processEvents J evs st →
      ToolCallWindow J evs n id v ∨ ClosesOpenState J evs st n id v := by
  induction evs with
  | nil => intro st n id v hmem; simp [processEvents] at hmem
  | cons e rest ih =>
      intro st n id v hmem
      rw [processEvents_cons] at hmem
      cases e with
      | messageStart m =>
          simp only [handle_event, Option.toList_none, List.nil_append] at hmem
          rcases ih st n id v hmem with hw | hc
          · exact Or.inl (ToolCallWindow_cons J _ rest n id v hw)
          · exact Or.inr (ClosesOpenState_cons J _ rest st n id v rfl rfl (fun l => rfl) hc)
      | messageDelta d u =>
          simp only [handle_event, Option.toList_none, List.nil_append] at hmem
          rcases ih st n id v hmem with hw | hc
          · exact Or.inl (ToolCallWindow_cons J _ rest n id v hw)
          · exact Or.inr (ClosesOpenState_cons J _ rest st n id v rfl rfl (fun l => rfl) hc)
      | messageStop =>
          simp only [handle_event, Option.toList_none, List.nil_append] at hmem
          rcases ih st n id v hmem with hw | hc
          · exact Or.inl (ToolCallWindow_cons J _ rest n id v hw)
          · exact Or.inr (ClosesOpenState_cons J _ rest st n id v rfl rfl (fun l => rfl) hc)
      | ping =>
          simp only [handle_event, Option.toList_none, List.nil_append] at hmem
          rcases ih st n id v hmem with hw | hc
          · exact Or.inl (ToolCallWindow_cons J _ rest n id v hw)
          · exact Or.inr (ClosesOpenState_cons J _ rest st n id v rfl rfl (fun l => rfl) hc)
      | unknown =>
          simp only [handle_event, Option.toList_none, List.nil_append] at hmem
          rcases ih st n id v hmem with hw | hc
          · exact Or.inl (ToolCallWindow_cons J _ rest n id v hw)
          · exact Or.inr (ClosesOpenState_cons J _ rest st n id v rfl rfl (fun l => rfl) hc)
      | contentBlockStart idx cb =>
          cases cb with
          | toolUse cid cname =>
              simp only [handle_event, Option.toList_none, List.nil_append] at hmem
              rcases ih _ n id v hmem with hw | hc
              · exact Or.inl (ToolCallWindow_cons J _ rest n id v hw)
              · obtain ⟨buf, jdx, mid, post, hst, hrest, hmid, hJ⟩ := hc
                obtain ⟨hn, hid, hbuf⟩ : cname = n ∧ cid = id ∧ "" = buf := by
                  have := Option.some.inj hst
                  exact ⟨congrArg ToolCallState.name this,
                    congrArg ToolCallState.id this,
                    congrArg ToolCallState.input_json this⟩
                subst hn; subst hid; subst hbuf
                refine Or.inl ⟨idx, jdx, [], mid, post, ?_, hmid, ?_⟩
                · rw [hrest]; rfl
                · simpa [String.empty_append] using hJ
          | text t =>
              simp only [handle_event, Option.toList_none, List.nil_append] at hmem
              rcases ih st n id v hmem with hw | hc
              · exact Or.inl (ToolCallWindow_cons J _ rest n id v hw)
              · exact Or.inr (ClosesOpenState_cons J _ rest st n id v rfl rfl (fun l => rfl) hc)
          | other =>
              simp only [handle_event, Option.toList_none, List.nil_append] at hmem
              rcases ih st n id v hmem with hw | hc
              · exact Or.inl (ToolCallWindow_cons J _ rest n id v hw)
              · exact Or.inr (ClosesOpenState_cons J _ rest st n id v rfl rfl (fun l => rfl) hc)
      | contentBlockDelta idx d =>
          cases d with
          | textDelta t =>
              cases st with
              | none =>
                  simp only [handle_event, Option.toList_some, List.singleton_append,
                    List.mem_cons] at hmem
                  rcases hmem with heq | hmem
                  · exact absurd (Except.ok.inj heq) (by intro h; cases h)
                  · rcases ih none n id v hmem with hw | hc
                    · exact Or.inl (ToolCallWindow_cons J _ rest n id v hw)
                    · obtain ⟨buf, jdx, mid, post, hst, _⟩ := hc
                      cases hst
              | some tc =>
                  simp only [handle_event, Option.toList_none, List.nil_append] at hmem
                  rcases ih _ n id v hmem with hw | hc
                  · exact Or.inl (ToolCallWindow_cons J _ rest n id v hw)
                  · exact Or.inr (ClosesOpenState_cons J _ rest _ n id v rfl rfl (fun l => rfl) hc)
          | inputJsonDelta pj =>
              cases st with
              | none =>
                  simp only [handle_event, Option.toList_none, List.nil_append] at hmem
                  rcases ih none n id v hmem with hw | hc
                  · exact Or.inl (ToolCallWindow_cons J _ rest n id v hw)
                  · obtain ⟨buf, jdx, mid, post, hst, _⟩ := hc
                    cases hst
              | some tc =>
                  cases tc with
                  | mk tname tid tbuf =>
                      simp only [handle_event, Option.toList_none, List.nil_append] at hmem
                      rcases ih _ n id v hmem with hw | hc
                      · exact Or.inl (ToolCallWindow_cons J _ rest n id v hw)
                      · obtain ⟨buf, jdx, mid, post, hst, hrest, hmid, hJ⟩ := hc
                        obtain ⟨hn, hid, hbuf⟩ : tname = n ∧ tid = id ∧ tbuf ++ pj = buf := by
                          have := Option.some.inj hst
                          exact ⟨congrArg ToolCallState.name this,
                            congrArg ToolCallState.id this,
                            congrArg ToolCallState.input_json this⟩
                        subst hn; subst hid; subst hbuf
                        refine Or.inr ⟨tbuf, jdx,
                          StreamingEvent.contentBlockDelta idx (.inputJsonDelta pj) :: mid,
                          post, rfl, by rw [hrest, List.cons_append], ?_, ?_⟩
                        · simpa [midOk, List.all_cons, isBlockStop, isToolUseStart] using hmid
                        · have : deltasConcat
                              (StreamingEvent.contentBlockDelta idx (.inputJsonDelta pj) :: mid)
                              = pj ++ deltasConcat mid := rfl
                          rw [this, ← String.append_assoc]
                          exact hJ
      | contentBlockStop idx =>
          cases st with
          | none =>
              simp only [handle_event, Option.toList_none, List.nil_append] at hmem
              rcases ih none n id v hmem with hw | hc
              · exact Or.inl (ToolCallWindow_cons J _ rest n id v hw)
              · obtain ⟨buf, jdx, mid, post, hst, _⟩ := hc
                cases hst
          | some tc =>
              cases tc with
              | mk tname tid tbuf =>
                  cases hp : J (if tbuf = "" then "\x7b\x7d" else tbuf) with
                  | ok jv =>
                      simp only [handle_event, hp, Option.toList_some,
                        List.singleton_append, List.mem_cons] at hmem
                      rcases hmem with heq | hmem
                      · have h2 := Except.ok.inj heq
                        injection h2 with hn hid hv
                        subst hn; subst hid; subst hv
                        refine Or.inr ⟨tbuf, idx, [], rest, rfl, rfl, rfl, ?_⟩
                        simpa [effJson, deltasConcat, String.append_empty] using hp
                      · rcases ih none n id v hmem with hw | hc
                        · exact Or.inl (ToolCallWindow_cons J _ rest n id v hw)
                        · obtain ⟨buf, jdx, mid, post, hst, _⟩ := hc
                          cases hst
                  | error er =>
                      simp only [handle_event, hp, Option.toList_some,
                        List.singleton_append, List.mem_cons] at hmem
                      rcases hmem with heq | hmem
                      · exact absurd heq (by intro h; cases h)
                      · rcases ih none n id v hmem with hw | hc
                        · exact Or.inl (ToolCallWindow_cons J _ rest n id v hw)
                        · obtain ⟨buf, jdx, mid, post, hst, _⟩ := hc
                          cases hst

/-- The block-stop step of `handle_event` on an open accumulation, in
terms of `effJson`. -/
theorem handle_event_stop (J : String → Except String Json) (idx : Nat)
    (tc : ToolCallState) :
    handle_event J (.contentBlockStop idx) (some tc) =
      match J (effJson tc.input_json) with
      | .ok jv => (some (.ok (.toolCall tc.name tc.id jv)), none)
      | .error e => (some (.error (.toolArgumentsMalformed e)), none) := rfl

/-- A complete accumulation window makes the loop emit the corresponding
ToolCall item. -/
theorem window_emits (J : String → Except String Json) (evs : List StreamingEvent)
    (n id : String) (v : Json) (h : ToolCallWindow J evs n id v) :
    Except.ok (StreamingChoice.toolCall n id v) ∈ processEvents J evs none := by
  obtain ⟨idx, jdx, pre, mid, post, heq, hmid, hJ⟩ := h
  subst heq
  rw [processEvents_append]
  refine List.mem_append_right _ ?_
  have hstart : handle_event J (StreamingEvent.contentBlockStart idx (.toolUse id n))
      (finalState J pre none) = (none, some ⟨n, id, ""⟩) := rfl
  rw [processEvents_cons, hstart]
  simp only [Option.toList_none, List.nil_append]
  rw [processEvents_append]
  have hrun := midOk_run J mid hmid ⟨n, id, ""⟩
  rw [hrun.2]
  refine List.mem_append_right _ ?_
  have htc : handle_event J (StreamingEvent.contentBlockStop jdx)
      (some ⟨n, id, "" ++ deltasConcat mid⟩) = (some (.ok (.toolCall n id v)), none) := by
    rw [handle_event_stop]
    simp only [String.empty_append]
    rw [hJ]
  rw [processEvents_cons, htc]
  simp

/-! ## Lemmas about the frame splitter -/

theorem splitNl_ne_nil (l : List Char) : splitNl l ≠ [] := by
  induction l with
  | nil => simp [splitNl]
  | cons c l ih =>
      by_cases h : c = '\n'
      · simp [splitNl, h]
      · rcases hs : splitNl l with _ | ⟨s, ss⟩
        · exact absurd hs ih
        · simp [splitNl, h, hs]

theorem splitNl_append_nl (l r : List Char) :
    splitNl (l ++ '\n' :: r) = splitNl l ++ splitNl r := by
  induction l with
  | nil => simp [splitNl]
  | cons c l ih =>
      by_cases h : c = '\n'
      · subst h; simp [splitNl, ih]
      · rcases hs : splitNl l with _ | ⟨s, ss⟩
        · exact absurd hs (splitNl_ne_nil l)
        · have lhs : splitNl ((c :: l) ++ '\n' :: r) =
              (match splitNl (l ++ '\n' :: r) with
                | s :: ss => (c :: s) :: ss
                | [] => [[c]]) := by
            simp [splitNl, h]
          rw [lhs, ih, hs]
          simp [splitNl, h, hs, List.cons_append]

theorem dropLast_append_ne {α : Type} (l1 l2 : List α) (h : l2 ≠ []) :
    (l1 ++ l2).dropLast = l1 ++ l2.dropLast := by
  induction l1 with
  | nil => rfl
  | cons a l1 ih =>
      rcases l1 with _ | ⟨b, l1'⟩
      · rcases l2 with _ | ⟨c, l2'⟩
        · exact absurd rfl h
        · rfl
      · simp only [List.cons_append] at *
        rw [List.dropLast_cons₂, ih]

theorem getLast?_append_ne {α : Type} (l1 l2 : List α) (a : α)
    (h2 : l2.getLast? = some a) : (l1 ++ l2).getLast? = some a := by
  rw [List.getLast?_append, h2]
  rfl

/-- A chunk ending in a newline splits independently: its lines followed
by the lines of the remaining text. -/
theorem rustLines_nl_append (l r : List Char) :
    rustLines (l ++ '\n' :: r) = rustLines (l ++ ['\n']) ++ rustLines r := by
  have hl : splitNl (l ++ ['\n']) = splitNl l ++ [[]] := by
    have h0 : (l ++ ['\n'] : List Char) = l ++ '\n' :: ([] : List Char) := rfl
    rw [h0, splitNl_append_nl]
    rfl
  have hmid : rustLines (l ++ ['\n']) = List.map stripCr (splitNl l) := by
    unfold rustLines
    rw [hl, List.getLast?_concat, List.dropLast_concat]
    simp
  cases hB : (splitNl r).getLast? with
  | none => exact absurd (List.getLast?_eq_none_iff.mp hB) (splitNl_ne_nil r)
  | some seg =>
      by_cases hseg : seg = ([] : List Char)
      · subst hseg
        have hr : rustLines r = List.map stripCr ((splitNl r).dropLast) := by
          unfold rustLines
          rw [hB]
          simp
        have hlhs : rustLines (l ++ '\n' :: r)
            = List.map stripCr (splitNl l ++ (splitNl r).dropLast) := by
          unfold rustLines
          rw [splitNl_append_nl, getLast?_append_ne _ _ _ hB,
            dropLast_append_ne _ _ (splitNl_ne_nil r)]
          simp
        rw [hlhs, hmid, hr, List.map_append]
      · have hr : rustLines r = List.map stripCr (splitNl r) := by
          unfold rustLines
          rw [hB]
          simp [hseg]
        have hlhs : rustLines (l ++ '\n' :: r)
            = List.map stripCr (splitNl l ++ splitNl r) := by
          unfold rustLines
          rw [splitNl_append_nl, getLast?_append_ne _ _ _ hB]
          simp [hseg]
        rw [hlhs, hmid, hr, List.map_append]

theorem getLast?_eq_some_split {α : Type} (l : List α) (a : α)
    (h : l.getLast? = some a) : ∃ l', l = l' ++ [a] := by
  induction l with
  | nil => cases h
  | cons b l ih =>
      rcases l with _ | ⟨c, l'⟩
      · obtain rfl : b = a := by simpa using h
        exact ⟨[], rfl⟩
      · obtain ⟨l'', hl''⟩ := ih (by simpa using h)
        exact ⟨b :: l'', by rw [hl'']; rfl⟩

/-- When every chunk boundary falls at a line boundary (each non-final
chunk is empty or ends with a newline), per-chunk line splitting agrees
with splitting the whole byte stream at once. -/
theorem chunkLines_eq_whole (chunks : List (List Char))
    (h : ∀ c ∈ chunks.dropLast, c = [] ∨ c.getLast? = some '\n') :
    chunkLines chunks = rustLines chunks.flatten := by
  induction chunks with
  | nil => rfl
  | cons c chunks ih =>
      rcases chunks with _ | ⟨c2, cs⟩
      · simp [chunkLines]
      · have hc : c = [] ∨ c.getLast? = some '\n' := by
          refine h c ?_
          rw [List.dropLast_cons₂]
          exact List.mem_cons_self c _
        have hrest := ih (fun x hx => h x (by
          rw [List.dropLast_cons₂]
          exact List.mem_cons_of_mem _ hx))
        have hstep : chunkLines (c :: c2 :: cs) = rustLines c ++ chunkLines (c2 :: cs) := by
          simp [chunkLines]
        rcases hc with rfl | hnl
        · rw [hstep, hrest]
          have : rustLines ([] : List Char) = [] := rfl
          rw [this, List.nil_append]
          rfl
        · obtain ⟨c', rfl⟩ := getLast?_eq_some_split c '\n' hnl
          rw [hstep, hrest]
          have hflat : ((c' ++ ['\n']) :: c2 :: cs).flatten
              = c' ++ '\n' :: (c2 :: cs).flatten := by
            simp
          conv_rhs => rw [hflat, rustLines_nl_append]

/-! ## Lemmas about line-by-line processing -/

theorem dataPayload?_mkDataLine (payload : List Char) :
    dataPayload? (mkDataLine payload) = some payload := by
  unfold dataPayload? mkDataLine
  have h6 : ("data: ".data).length = 6 := rfl
  rw [← h6, List.take_left, List.drop_left]
  simp

theorem processLine_badPayload (PE : List Char → Except String StreamingEvent)
    (J : String → Except String Json) (bad : List Char) (e : String)
    (st : Option ToolCallState)
    (hPE : PE bad = .error e) (htrim : trimEmpty bad = false) :
    processLine PE J (mkDataLine bad) st =
      ([.error (.jsonMalformed (parseFailMsg e bad))], st) := by
  unfold processLine
  rw [dataPayload?_mkDataLine]
  simp [htrim, hPE]

theorem processLines_append (PE : List Char → Except String StreamingEvent)
    (J : String → Except String Json) (ls1 ls2 : List (List Char))
    (st : Option ToolCallState) :
    processLines PE J (ls1 ++ ls2) st =
      ((processLines PE J ls1 st).1
         ++ (processLines PE J ls2 (processLines PE J ls1 st).2).1,
       (processLines PE J ls2 (processLines PE J ls1 st).2).2) := by
  induction ls1 generalizing st with
  | nil => simp [processLines]
  | cons line ls ih => simp [processLines, ih, List.append_assoc]

/-! ## The claims -/

/-- C1 (counterexample): the code ignores block indices entirely. On the
event sequence [tool-use start at index 0, stop at index 1] a ToolCall IS
emitted, yet no start/stop pair at the same index exists, refuting the
stated "at the same index" iff. -/
theorem claim1_counterexample :
    (processEvents parseOnlyEmptyObj
        [StreamingEvent.contentBlockStart 0 (.toolUse "t1" "lookup"),
         StreamingEvent.contentBlockStop 1] none
      = [Except.ok (StreamingChoice.toolCall "lookup" "t1" (Json.obj []))])
    ∧ ¬ SameIndexWindow
        [StreamingEvent.contentBlockStart 0 (.toolUse "t1" "lookup"),
         StreamingEvent.contentBlockStop 1] := by
  refine ⟨rfl, ?_⟩
  rintro ⟨idx, id, name, pre, mid, post, heq, -⟩
  have hlen := congrArg List.length heq
  simp [List.length_append] at hlen
  have hpre : pre = [] := List.length_eq_zero.mp (by omega)
  have hmid : mid = [] := List.length_eq_zero.mp (by omega)
  have hpost : post = [] := List.length_eq_zero.mp (by omega)
  subst hpre; subst hmid; subst hpost
  simp only [List.nil_append] at heq
  injection heq with ha htail
  injection htail with hb _
  injection ha with hidx _
  injection hb with hidx2
  omega

/-- C1 (amended): a ToolCall item with name `n`, id `id` and arguments `v`
is emitted iff the event sequence contains a tool-use block start carrying
`id` and `n`, eventually followed by a block stop with no other block stop
or tool-use block start in between (block indices are ignored by the
code), such that the concatenation of the in-between input_json_delta
texts — taken as the empty-object literal when empty — parses to `v`. -/
theorem claim1_toolcall_iff_window (J : String → Except String Json)
    (evs : List StreamingEvent) (n id : String) (v : Json) :
    Except.ok (StreamingChoice.toolCall n id v) ∈ processEvents J evs none ↔
      ToolCallWindow J evs n id v := by
  constructor
  · intro h
    rcases toolCall_origin J evs none n id v h with hw | hc
    · exact hw
    · obtain ⟨buf, jdx, mid, post, hst, -⟩ := hc
      cases hst
  · exact window_emits J evs n id v

/-- C2: for every event sequence containing no tool-use block start, the
output equals the text_delta contents, as Message items in arrival order,
and every other event produces no item. -/
theorem claim2_text_passthrough (J : String → Except String Json)
    (evs : List StreamingEvent) (h : ∀ e ∈ evs, isToolUseStart e = false) :
    processEvents J evs none =
      (textDeltaTexts evs).map (fun t => Except.ok (StreamingChoice.message t)) := by
  induction evs with
  | nil => rfl
  | cons e rest ih =>
      have he := h e (List.mem_cons_self e rest)
      have hrest := ih (fun x hx => h x (List.mem_cons_of_mem e hx))
      cases e with
      | messageStart m =>
          simpa [processEvents_cons, handle_event, textDeltaTexts] using hrest
      | contentBlockStart idx cb =>
          cases cb with
          | toolUse cid cname => simp [isToolUseStart] at he
          | text t => simpa [processEvents_cons, handle_event, textDeltaTexts] using hrest
          | other => simpa [processEvents_cons, handle_event, textDeltaTexts] using hrest
      | contentBlockDelta idx d =>
          cases d with
          | textDelta t =>
              simpa [processEvents_cons, handle_event, textDeltaTexts] using hrest
          | inputJsonDelta pj =>
              simpa [processEvents_cons, handle_event, textDeltaTexts] using hrest
      | contentBlockStop idx =>
          simpa [processEvents_cons, handle_event, textDeltaTexts] using hrest
      | messageDelta d u =>
          simpa [processEvents_cons, handle_event, textDeltaTexts] using hrest
      | messageStop =>
          simpa [processEvents_cons, handle_event, textDeltaTexts] using hrest
      | ping =>
          simpa [processEvents_cons, handle_event, textDeltaTexts] using hrest
      | unknown =>
          simpa [processEvents_cons, handle_event, textDeltaTexts] using hrest

/-- Witness for C2, the spec §8 scenario: a lone text_delta with no open
tool call yields exactly the TextFragment. -/
theorem claim2_witness :
    processEvents parseNothing
        [StreamingEvent.contentBlockDelta 0 (.textDelta "Hello")] none
      = [Except.ok (StreamingChoice.message "Hello")] := by
  have h := claim2_text_passthrough parseNothing
    [StreamingEvent.contentBlockDelta 0 (.textDelta "Hello")] (by decide)
  simpa [textDeltaTexts] using h

/-- C3 (counterexample): items CAN be produced after a MessageStop event
is decoded — the code treats MessageStop as a no-op and the loop keeps
yielding for later events; here a text fragment follows MessageStop. -/
theorem claim3_counterexample :
    ¬ (∀ (J : String → Except String Json) (evs : List StreamingEvent)
        (st : Option ToolCallState) (k m : Nat),
        evs[k]? = some StreamingEvent.messageStop → k < m →
        (eventOutputs J evs st)[m]? = some none) := by
  intro hclaim
  have h := hclaim parseNothing
    [StreamingEvent.messageStop, StreamingEvent.contentBlockDelta 0 (.textDelta "hi")]
    none 0 1 rfl (by omega)
  simp [eventOutputs, handle_event] at h

/-- C3 (amended): MessageStop yields no item and does not terminate the
stream — processing continues with the remaining events unchanged; the
output sequence ends when the chunk list is exhausted, and a transport
read failure ends it with a single transport-error item, whatever
follows. -/
theorem claim3_messageStop_not_terminal (J : String → Except String Json)
    (rest : List StreamingEvent) (st : Option ToolCallState)
    (PE : List Char → Except String StreamingEvent) (e : String)
    (chunks : List ChunkResult) :
    processEvents J (StreamingEvent.messageStop :: rest) st = processEvents J rest st
    ∧ handle_event J StreamingEvent.messageStop st = (none, st)
    ∧ processChunks PE J [] st = []
    ∧ processChunks PE J (ChunkResult.fail e :: chunks) st
        = [Except.error (CompletionError.transportError e)] :=
  ⟨rfl, rfl, rfl, rfl⟩

/-- C4 (counterexample): the frame splitter does NOT buffer a trailing
partial line across chunk boundaries: splitting the bytes of one line
mid-line yields different lines than delivering them as one chunk. -/
theorem claim4_counterexample :
    ['a', 'b'] ++ ['c', 'd', '\n'] = ['a', 'b', 'c', 'd', '\n']
    ∧ chunkLines [['a', 'b'], ['c', 'd', '\n']]
        ≠ rustLines (['a', 'b'] ++ ['c', 'd', '\n']) :=
  ⟨rfl, by decide⟩

/-- C4 (amended): each chunk is split into lines independently, so
chunking agrees with one-shot splitting exactly on boundary-aligned
splits: when every non-final chunk is empty or ends with a newline, the
per-chunk lines equal the lines of the whole stream. -/
theorem claim4_boundary_lines (chunks : List (List Char))
    (h : ∀ c ∈ chunks.dropLast, c = [] ∨ c.getLast? = some '\n') :
    chunkLines chunks = rustLines chunks.flatten :=
  chunkLines_eq_whole chunks h

/-- Witness for C4 (amended) at a concrete boundary-aligned split. -/
theorem claim4_witness :
    chunkLines [['a', 'b', '\n'], ['c', 'd']]
      = rustLines ([['a', 'b', '\n'], ['c', 'd']] : List (List Char)).flatten := by
  exact claim4_boundary_lines [['a', 'b', '\n'], ['c', 'd']] (by decide)

/-- C5 (counterexample): discriminator matching is case-sensitive, not
case-insensitive: the tag value MESSAGE_STOP selects Unknown, while
case-insensitive snake_case matching would select MessageStop. -/
theorem claim5_counterexample :
    selectVariant "MESSAGE_STOP" = VariantName.unknown
    ∧ selectVariantCI "MESSAGE_STOP" = VariantName.messageStop
    ∧ selectVariant "MESSAGE_STOP" ≠ selectVariantCI "MESSAGE_STOP" := by
  refine ⟨rfl, by decide, by decide⟩

/-- C5 (amended): the decoder selects the variant by exact (case-sensitive)
match of the discriminator against the snake_case variant names, and every
unrecognized discriminator value selects the Unknown variant rather than
failing. -/
theorem claim5_unknown_fallback :
    (∀ tag : String, tag ∉ variantTags → selectVariant tag = VariantName.unknown)
    ∧ selectVariant "message_start" = VariantName.messageStart
    ∧ selectVariant "content_block_start" = VariantName.contentBlockStart
    ∧ selectVariant "content_block_delta" = VariantName.contentBlockDelta
    ∧ selectVariant "content_block_stop" = VariantName.contentBlockStop
    ∧ selectVariant "message_delta" = VariantName.messageDelta
    ∧ selectVariant "message_stop" = VariantName.messageStop
    ∧ selectVariant "ping" = VariantName.ping := by
  refine ⟨?_, rfl, rfl, rfl, rfl, rfl, rfl, rfl⟩
  intro tag h
  simp [variantTags, List.mem_cons] at h
  obtain ⟨h1, h2, h3, h4, h5, h6, h7⟩ := h
  simp [selectVariant, h1, h2, h3, h4, h5, h6, h7]

/-- Witness for C5 (amended): a never-before-seen tag value maps to
Unknown. -/
theorem claim5_witness :
    "totally_new_event" ∉ variantTags
    ∧ selectVariant "totally_new_event" = VariantName.unknown :=
  ⟨by decide, claim5_unknown_fallback.1 "totally_new_event" (by decide)⟩

/-- C6: an SSE payload that fails event decoding yields exactly one
failed item in place, leaves the accumulator state untouched, and does
not suppress the items produced by lines before or after it; a transport
read failure instead terminates the sequence with a single
transport-error item, regardless of what follows. -/
theorem claim6_malformed_payload_recoverable
    (PE : List Char → Except String StreamingEvent)
    (J : String → Except String Json)
    (pre post : List (List Char)) (bad : List Char) (e : String)
    (st : Option ToolCallState)
    (hPE : PE bad = .error e) (htrim : trimEmpty bad = false) :
    (processLines PE J (pre ++ mkDataLine bad :: post) st).1 =
      (processLines PE J pre st).1
        ++ Except.error (CompletionError.jsonMalformed (parseFailMsg e bad))
        :: (processLines PE J post (processLines PE J pre st).2).1
    ∧ (processLines PE J (pre ++ mkDataLine bad :: post) st).2
        = (processLines PE J post (processLines PE J pre st).2).2
    ∧ (∀ (te : String) (chunks : List ChunkResult) (st' : Option ToolCallState),
        processChunks PE J (ChunkResult.fail te :: chunks) st'
          = [Except.error (CompletionError.transportError te)]) := by
  have hsplit := processLines_append PE J pre (mkDataLine bad :: post) st
  have hmid : ∀ s, processLines PE J (mkDataLine bad :: post) s
      = (Except.error (CompletionError.jsonMalformed (parseFailMsg e bad))
            :: (processLines PE J post s).1,
         (processLines PE J post s).2) := by
    intro s
    have hl := processLine_badPayload PE J bad e s hPE htrim
    simp [processLines, hl]
  refine ⟨?_, ?_, fun te chunks st' => rfl⟩
  · rw [hsplit, hmid]
  · rw [hsplit, hmid]

/-- Witness for C6 at a concrete undecodable payload. -/
theorem claim6_witness :
    (processLines eventParseNothing parseNothing [mkDataLine ['x']] none).1
      = [Except.error (CompletionError.jsonMalformed (parseFailMsg "boom" ['x']))] := by
  have h := (claim6_malformed_payload_recoverable eventParseNothing parseNothing
    [] [] ['x'] "boom" none rfl (by decide)).1
  simpa [processLines] using h

/-- C7: at a block stop with a non-empty accumulated buffer that fails to
parse, exactly one failed item is emitted, processing continues, and the
accumulator is reset to Idle. -/
theorem claim7_toolargs_malformed (J : String → Except String Json)
    (idx : Nat) (rest : List StreamingEvent) (tc : ToolCallState) (e : String)
    (hne : tc.input_json ≠ "") (hJ : J tc.input_json = .error e) :
    processEvents J (StreamingEvent.contentBlockStop idx :: rest) (some tc) =
      Except.error (CompletionError.toolArgumentsMalformed e)
        :: processEvents J rest none := by
  rw [processEvents_cons, handle_event_stop]
  have heff : effJson tc.input_json = tc.input_json := by
    unfold effJson
    exact if_neg hne
  rw [heff, hJ]
  rfl

/-- Witness for C7 at a concrete truncated buffer. -/
theorem claim7_witness :
    processEvents parseNothing [StreamingEvent.contentBlockStop 0]
        (some ⟨"lookup", "t1", "\x7b"⟩)
      = [Except.error (CompletionError.toolArgumentsMalformed "\x7b")] := by
  have h := claim7_toolargs_malformed parseNothing 0 []
    ⟨"lookup", "t1", "\x7b"⟩ "\x7b" (by decide) rfl
  simpa using h

/-- C8: a tool-use start immediately followed by a block stop (zero
deltas) yields a ToolCall whose arguments are the empty JSON object, and
in general a ToolCall item is only ever emitted with an argument value
obtained from a successful parse. -/
theorem claim8_empty_args_object (J : String → Except String Json)
    (hJ : J "\x7b\x7d" = .ok (Json.obj [])) :
    (∀ (idx jdx : Nat) (id name : String) (rest : List StreamingEvent)
        (st : Option ToolCallState),
      processEvents J (StreamingEvent.contentBlockStart idx (.toolUse id name)
          :: StreamingEvent.contentBlockStop jdx :: rest) st
        = Except.ok (StreamingChoice.toolCall name id (Json.obj []))
            :: processEvents J rest none)
    ∧ (∀ (evs : List StreamingEvent) (st : Option ToolCallState)
        (n id : String) (v : Json),
        Except.ok (StreamingChoice.toolCall n id v) ∈ processEvents J evs st →
        ∃ s, J s = .ok v) := by
  constructor
  · intro idx jdx id name rest st
    rw [processEvents_cons]
    have h1 : handle_event J (StreamingEvent.contentBlockStart idx (.toolUse id name)) st
        = (none, some ⟨name, id, ""⟩) := rfl
    rw [h1]
    simp only [Option.toList_none, List.nil_append]
    rw [processEvents_cons, handle_event_stop]
    have h2 : effJson (ToolCallState.mk name id "").input_json = "\x7b\x7d" := rfl
    rw [h2, hJ]
    rfl
  · intro evs st n id v hmem
    rcases toolCall_origin J evs st n id v hmem with hw | hc
    · obtain ⟨idx, jdx, pre, mid, post, heq, hmid, hJ'⟩ := hw
      exact ⟨_, hJ'⟩
    · obtain ⟨buf, jdx, mid, post, hst, heq, hmid, hJ'⟩ := hc
      exact ⟨_, hJ'⟩

/-- Witness for C8, the empty-delta window. -/
theorem claim8_witness :
    processEvents parseOnlyEmptyObj
        [StreamingEvent.contentBlockStart 0 (.toolUse "t1" "lookup"),
         StreamingEvent.contentBlockStop 0] none
      = [Except.ok (StreamingChoice.toolCall "lookup" "t1" (Json.obj []))] := by
  have h := (claim8_empty_args_object parseOnlyEmptyObj rfl).1 0 0 "t1" "lookup" [] none
  simpa using h

/-- C9: a text_delta is passed through as a Message item exactly when no
tool call is open (state Idle, which it stays in); while a tool call is
open the text is dropped and the accumulation state is unchanged. -/
theorem claim9_textdelta_states (J : String → Except String Json)
    (idx : Nat) (t : String) (rest : List StreamingEvent) (tc : ToolCallState) :
    processEvents J (StreamingEvent.contentBlockDelta idx (.textDelta t) :: rest) none
      = Except.ok (StreamingChoice.message t) :: processEvents J rest none
    ∧ handle_event J (StreamingEvent.contentBlockDelta idx (.textDelta t)) none
      = (some (Except.ok (StreamingChoice.message t)), none)
    ∧ processEvents J (StreamingEvent.contentBlockDelta idx (.textDelta t) :: rest) (some tc)
      = processEvents J rest (some tc)
    ∧ handle_event J (StreamingEvent.contentBlockDelta idx (.textDelta t)) (some tc)
      = (none, some tc) :=
  ⟨rfl, rfl, rfl, rfl⟩

/-- C10: a tool-use block start while an accumulation is open emits
nothing and unconditionally replaces the open state with a fresh one (new
name, new id, empty buffer); the discarded accumulation can never
influence the output — processing is independent of the prior state. -/
theorem claim10_toolstart_replaces (J : String → Except String Json)
    (idx : Nat) (id name : String) (rest : List StreamingEvent)
    (tc : ToolCallState) (s1 s2 : Option ToolCallState) :
    handle_event J (StreamingEvent.contentBlockStart idx (.toolUse id name)) (some tc)
      = (none, some ⟨name, id, ""⟩)
    ∧ processEvents J (StreamingEvent.contentBlockStart idx (.toolUse id name) :: rest) s1
      = processEvents J (StreamingEvent.contentBlockStart idx (.toolUse id name) :: rest) s2 :=
  ⟨rfl, rfl⟩

end Rig
